import Mathlib

/-!
# Verification of `simple-upload` (claudio4/simple-upload, `main.go`)

Shallow embedding of the filename-handling and upload-finalization logic of
`main.go`.  Go strings are modelled as `List Char`; the uploads directory is
modelled as the finite list of names it contains; the tusd metadata store
(`<id>.info` records) is modelled as the finite list of upload IDs that have a
record.

* `replaceAll` embeds Go `strings.ReplaceAll` (left-to-right, non-overlapping).
* `sanitizeFilename` embeds `sanitizeFilename` (main.go:58-76).
* `getUniqueFilename` embeds `getUniqueFilename` (main.go:79-100); its
  unbounded `for i := 1; ; i++` probe loop is embedded with an explicit probe
  bound of `existing.length + 1`, which is proven sufficient (the
  fuel-exhaustion branch is unreachable, see `probeLoop` lemmas below).
* `processEvent` embeds the body of the event loop of `handleCompletedUploads`
  (main.go:102-148); rename failures of `os.Rename` are modelled by the
  environment flag `renameFails`.
-/

namespace SimpleUpload

/-- Fuel-bounded scanner for Go `strings.ReplaceAll`: scans left to right,
replacing non-overlapping occurrences of `pat` by `rep`.  One unit of fuel is
spent per step; with `fuel ≥ s.length` the fuel never runs out (each step
consumes at least one character of `s`). -/
def replaceAllFuel (pat rep : List Char) : Nat → List Char → List Char
  | 0, s => s
  | fuel + 1, s =>
    match s with
    | [] => []
    | c :: cs =>
      if pat.isPrefixOf (c :: cs) ∧ pat ≠ [] then
        rep ++ replaceAllFuel pat rep fuel (List.drop pat.length (c :: cs))
      else
        c :: replaceAllFuel pat rep fuel cs

/-- Go `strings.ReplaceAll s pat rep` (for the non-empty patterns used in
`main.go`). -/
def replaceAll (pat rep s : List Char) : List Char :=
  replaceAllFuel pat rep s.length s

/-- The list of unsafe sequences of `sanitizeFilename` (main.go:60), in source
order. -/
def unsafeSeqs : List (List Char) :=
  [['/'], ['\\'], ['.', '.'], [':'], ['*'], ['?'], ['"'], ['<'], ['>'], ['|']]

/-- The cutset of the `strings.Trim` call of `sanitizeFilename`
(main.go:68): spaces and dots. -/
def trimCutset : List Char := [' ', '.']

/-- Go `strings.Trim s cut`: drop leading and trailing characters that are in
the cutset. -/
def trimChars (cut : List Char) (s : List Char) : List Char :=
  ((s.dropWhile (fun c => cut.contains c)).reverse.dropWhile
    (fun c => cut.contains c)).reverse

/-- The fixed default name returned when sanitization empties the filename
(main.go:72; the typo is the source's). -/
def defaultFilename : List Char := "unkown-file".data

/-- `sanitizeFilename` (main.go:58-76): replace every unsafe sequence by
`'_'`, in source order, trim leading/trailing spaces and dots, and fall back
to the default name when the result is empty. -/
def sanitizeFilename (filename : List Char) : List Char :=
  let sanitized := unsafeSeqs.foldl (fun s pat => replaceAll pat ['_'] s) filename
  let trimmed := trimChars trimCutset sanitized
  if trimmed = [] then defaultFilename else trimmed

/-! ## Structural forms of the individual replacement passes

`strings.ReplaceAll` with a one-character pattern is a character map, and with
the pattern `".."` it is the structural left-to-right scan `replaceDD`.  These
forms are proven equal to `replaceAll` and used in the analysis. -/

/-- Replacing every occurrence of the single character `a` by `'_'`. -/
def replaceChar (a : Char) (s : List Char) : List Char :=
  s.map (fun c => if c = a then '_' else c)

/-- Replacing every (left-to-right, non-overlapping) occurrence of `".."` by
`'_'`. -/
def replaceDD : List Char → List Char
  | [] => []
  | [c] => [c]
  | c1 :: c2 :: rest =>
    if c1 = '.' ∧ c2 = '.' then '_' :: replaceDD rest
    else c1 :: replaceDD (c2 :: rest)

/-- `true` iff the string contains two adjacent dots, i.e. the substring
`".."`. -/
def hasDD : List Char → Bool
  | [] => false
  | [_] => false
  | c1 :: c2 :: rest => (c1 == '.' && c2 == '.') || hasDD (c2 :: rest)

/-- The chain of the ten replacement passes of `sanitizeFilename`, in source
order, in structural form. -/
def replaceUnsafe (s : List Char) : List Char :=
  replaceChar '|' (replaceChar '>' (replaceChar '<' (replaceChar '"'
    (replaceChar '?' (replaceChar '*' (replaceChar ':' (replaceDD
      (replaceChar '\\' (replaceChar '/' s)))))))))

theorem replaceAllFuel_single (a : Char) :
    ∀ fuel s, s.length ≤ fuel → replaceAllFuel [a] ['_'] fuel s = replaceChar a s := by
  intro fuel
  induction fuel with
  | zero =>
    intro s hs
    have : s = [] := List.length_eq_zero.mp (Nat.le_zero.mp hs)
    subst this; rfl
  | succ n ih =>
    intro s hs
    match s with
    | [] => rfl
    | c :: cs =>
      have hcs : cs.length ≤ n := Nat.le_of_succ_le_succ (by simpa using hs)
      by_cases h : c = a
      · subst h
        simp [replaceAllFuel, List.isPrefixOf, replaceChar, ih cs hcs]
      · simp [replaceAllFuel, List.isPrefixOf, replaceChar, Ne.symm h, h, ih cs hcs]

theorem replaceAll_single (a : Char) (s : List Char) :
    replaceAll [a] ['_'] s = replaceChar a s :=
  replaceAllFuel_single a s.length s (Nat.le_refl _)

theorem replaceAllFuel_nil (pat rep : List Char) (fuel : Nat) :
    replaceAllFuel pat rep fuel [] = [] := by
  cases fuel <;> rfl

theorem replaceAllFuel_dd :
    ∀ fuel s, s.length ≤ fuel → replaceAllFuel ['.', '.'] ['_'] fuel s = replaceDD s := by
  intro fuel
  induction fuel with
  | zero =>
    intro s hs
    have : s = [] := List.length_eq_zero.mp (Nat.le_zero.mp hs)
    subst this; rfl
  | succ n ih =>
    intro s hs
    match s with
    | [] => rfl
    | [c] =>
      simp [replaceAllFuel, List.isPrefixOf, replaceDD, replaceAllFuel_nil]
    | c1 :: c2 :: cs =>
      have hs' : cs.length + 2 ≤ n + 1 := by simpa using hs
      have hlen : (c2 :: cs).length ≤ n := by simp; omega
      have hcs : cs.length ≤ n := by omega
      by_cases h1 : c1 = '.'
      · by_cases h2 : c2 = '.'
        · subst h1; subst h2
          simp [replaceAllFuel, List.isPrefixOf, replaceDD, ih cs hcs]
        · simp [replaceAllFuel, List.isPrefixOf, replaceDD, h1, h2, Ne.symm h2, ih _ hlen]
      · simp [replaceAllFuel, List.isPrefixOf, replaceDD, h1, Ne.symm h1, ih _ hlen]

theorem replaceAll_dd (s : List Char) :
    replaceAll ['.', '.'] ['_'] s = replaceDD s :=
  replaceAllFuel_dd s.length s (Nat.le_refl _)

/-- The fold of `sanitizeFilename` over the ten unsafe sequences is the
structural chain `replaceUnsafe`. -/
theorem foldl_unsafeSeqs (s : List Char) :
    unsafeSeqs.foldl (fun s pat => replaceAll pat ['_'] s) s = replaceUnsafe s := by
  simp [unsafeSeqs, replaceUnsafe, List.foldl, replaceAll_single, replaceAll_dd]

/-- `sanitizeFilename`, rewritten through the structural replacement chain. -/
theorem sanitizeFilename_eq (s : List Char) :
    sanitizeFilename s =
      (if trimChars trimCutset (replaceUnsafe s) = [] then defaultFilename
       else trimChars trimCutset (replaceUnsafe s)) := by
  simp [sanitizeFilename, foldl_unsafeSeqs]

example : sanitizeFilename "../../etc/passwd".data = "____etc_passwd".data := by decide
example : sanitizeFilename "..".data = "_".data := by decide
example : sanitizeFilename " . . ".data = defaultFilename := by decide
example : sanitizeFilename "report.txt".data = "report.txt".data := by decide

/-! ## Character-level facts about the replacement passes -/

theorem mem_replaceChar {b a : Char} {s : List Char} (h : b ∈ replaceChar a s) :
    b = '_' ∨ b ∈ s := by
  rcases List.mem_map.mp h with ⟨c, hcs, heq⟩
  by_cases hca : c = a
  · simp [hca] at heq
    exact Or.inl heq.symm
  · simp [hca] at heq
    exact Or.inr (heq ▸ hcs)

/-- After the pass for `a`, the character `a` is gone, and any character that
was already absent (other than the placeholder) stays absent. -/
theorem not_mem_replaceChar (b a : Char) (hb : b ≠ '_') (t : List Char)
    (h : b = a ∨ b ∉ t) : b ∉ replaceChar a t := by
  intro hm
  rcases List.mem_map.mp hm with ⟨c, hct, heq⟩
  by_cases hca : c = a
  · simp [hca] at heq
    exact hb heq.symm
  · simp [hca] at heq
    subst heq
    rcases h with h | h
    · exact hca h
    · exact h hct

theorem mem_replaceDD {b : Char} : ∀ s : List Char, b ∈ replaceDD s → b = '_' ∨ b ∈ s
  | [] => fun h => by simp [replaceDD] at h
  | [c] => fun h => by
    simp [replaceDD] at h
    exact Or.inr (by simp [h])
  | c1 :: c2 :: cs => fun h => by
    by_cases hdd : c1 = '.' ∧ c2 = '.'
    · rw [replaceDD, if_pos hdd] at h
      rcases List.mem_cons.mp h with h | h
      · exact Or.inl h
      · rcases mem_replaceDD cs h with h' | h'
        · exact Or.inl h'
        · exact Or.inr (by simp [h'])
    · rw [replaceDD, if_neg hdd] at h
      rcases List.mem_cons.mp h with h | h
      · exact Or.inr (by simp [h])
      · rcases mem_replaceDD (c2 :: cs) h with h' | h'
        · exact Or.inl h'
        · exact Or.inr (List.mem_cons_of_mem _ h')

theorem not_mem_replaceDD (b : Char) (hb : b ≠ '_') (t : List Char) (h : b ∉ t) :
    b ∉ replaceDD t := fun hm => (mem_replaceDD t hm).elim hb h

theorem replaceChar_eq_self {a : Char} : ∀ s : List Char, a ∉ s → replaceChar a s = s
  | [] => fun _ => rfl
  | c :: cs => fun h => by
    have h1 : ¬ (c = a) := fun hc => h (hc ▸ List.mem_cons_self c cs)
    have h2 : a ∉ cs := fun hc => h (List.mem_cons_of_mem c hc)
    have ih := replaceChar_eq_self cs h2
    simp only [replaceChar, List.map] at ih ⊢
    rw [if_neg h1, ih]

theorem hasDD_cons_cons (x y : Char) (l : List Char) :
    hasDD (x :: y :: l) = ((x == '.' && y == '.') || hasDD (y :: l)) := rfl

theorem hasDD_tail {c : Char} {s : List Char} (h : hasDD (c :: s) = false) :
    hasDD s = false := by
  cases s with
  | nil => rfl
  | cons d ds =>
    rw [hasDD_cons_cons, Bool.or_eq_false_iff] at h
    exact h.2

theorem hasDD_cons_ne (c : Char) (hc : c ≠ '.') (s : List Char) :
    hasDD (c :: s) = hasDD s := by
  cases s with
  | nil => rfl
  | cons d ds =>
    rw [hasDD_cons_cons]
    simp [hc]

theorem replaceDD_eq_self : ∀ s : List Char, hasDD s = false → replaceDD s = s
  | [] => fun _ => rfl
  | [c] => fun _ => rfl
  | c1 :: c2 :: cs => fun h => by
    rw [hasDD_cons_cons, Bool.or_eq_false_iff] at h
    have hdd : ¬ (c1 = '.' ∧ c2 = '.') := by
      intro ⟨a, b⟩
      subst a; subst b
      simp at h
    rw [replaceDD, if_neg hdd, replaceDD_eq_self (c2 :: cs) h.2]

theorem head_replaceDD_cons {c : Char} (hc : c ≠ '.') (cs : List Char) :
    ∃ t, replaceDD (c :: cs) = c :: t := by
  cases cs with
  | nil => exact ⟨[], rfl⟩
  | cons d ds =>
    rw [replaceDD, if_neg (fun hdd => hc hdd.1)]
    exact ⟨replaceDD (d :: ds), rfl⟩

theorem hasDD_replaceDD : ∀ s : List Char, hasDD (replaceDD s) = false
  | [] => rfl
  | [c] => rfl
  | c1 :: c2 :: cs => by
    by_cases hdd : c1 = '.' ∧ c2 = '.'
    · rw [replaceDD, if_pos hdd, hasDD_cons_ne '_' (by decide)]
      exact hasDD_replaceDD cs
    · rw [replaceDD, if_neg hdd]
      by_cases h1 : c1 = '.'
      · have h2 : c2 ≠ '.' := fun h => hdd ⟨h1, h⟩
        rcases head_replaceDD_cons h2 cs with ⟨t, ht⟩
        have htail : hasDD (c2 :: t) = false := ht ▸ hasDD_replaceDD (c2 :: cs)
        rw [ht, hasDD_cons_cons, Bool.or_eq_false_iff]
        exact ⟨by simp [h2], htail⟩
      · rw [hasDD_cons_ne c1 h1]
        exact hasDD_replaceDD (c2 :: cs)

theorem hasDD_map (f : Char → Char) (hf : ∀ c, f c = '.' ↔ c = '.') :
    ∀ s : List Char, hasDD s = false → hasDD (s.map f) = false
  | [] => fun _ => rfl
  | [c] => fun _ => rfl
  | c1 :: c2 :: cs => fun h => by
    rw [hasDD_cons_cons, Bool.or_eq_false_iff] at h
    have ih := hasDD_map f hf (c2 :: cs) h.2
    rw [List.map_cons] at ih
    rw [List.map_cons, List.map_cons, hasDD_cons_cons, Bool.or_eq_false_iff]
    refine ⟨?_, ih⟩
    have h1 := h.1
    by_cases hx : f c1 = '.'
    · by_cases hy : f c2 = '.'
      · rw [(hf c1).mp hx, (hf c2).mp hy] at h1
        simp at h1
      · simp [hy]
    · simp [hx]

theorem hasDD_replaceChar (a : Char) (ha : a ≠ '.') (s : List Char)
    (h : hasDD s = false) : hasDD (replaceChar a s) = false := by
  apply hasDD_map _ _ s h
  intro c
  by_cases hca : c = a
  · subst hca
    rw [if_pos rfl]
    constructor
    · intro h
      exact absurd h (by decide)
    · intro h
      exact absurd h ha
  · simp [hca]

/-- `hasDD` decides containment of the substring `".."`. -/
theorem hasDD_iff : ∀ l : List Char, hasDD l = true ↔ ['.', '.'] <:+: l
  | [] =>
    ⟨fun h => by simp [hasDD] at h, fun h => by have := h.length_le; simp at this⟩
  | [c] =>
    ⟨fun h => by simp [hasDD] at h, fun h => by have := h.length_le; simp at this⟩
  | c1 :: c2 :: cs => by
    rw [hasDD_cons_cons]
    constructor
    · intro h
      rcases Bool.or_eq_true_iff.mp h with h | h
      · rcases Bool.and_eq_true_iff.mp h with ⟨h1, h2⟩
        have h1 : c1 = '.' := by simpa using h1
        have h2 : c2 = '.' := by simpa using h2
        subst h1; subst h2
        exact ⟨[], cs, rfl⟩
      · rcases (hasDD_iff (c2 :: cs)).mp h with ⟨u, v, huv⟩
        exact ⟨c1 :: u, v, by rw [← huv]; rfl⟩
    · intro ⟨u, v, huv⟩
      cases u with
      | nil =>
        simp at huv
        rw [← huv.1, ← huv.2.1]
        simp
      | cons x xs =>
        have : ['.', '.'] <:+: c2 :: cs := by
          rw [List.cons_append, List.cons_append, List.cons.injEq] at huv
          exact ⟨xs, v, huv.2⟩
        rw [Bool.or_eq_true_iff]
        exact Or.inr ((hasDD_iff (c2 :: cs)).mpr this)

theorem not_infix_dd_of_hasDD {l : List Char} (h : hasDD l = false) :
    ¬ ['.', '.'] <:+: l := fun hi => by
  rw [← hasDD_iff] at hi
  rw [h] at hi
  exact Bool.false_ne_true hi

/-! ## Trimming -/

theorem trimChars_eq (cut s : List Char) :
    trimChars cut s =
      List.rdropWhile (fun c => cut.contains c)
        (s.dropWhile (fun c => cut.contains c)) := rfl

theorem trimChars_contained (cut s : List Char) : trimChars cut s <:+: s := by
  rw [trimChars_eq]
  have h1 : List.rdropWhile (fun c => cut.contains c)
      (s.dropWhile (fun c => cut.contains c)) <+:
      s.dropWhile (fun c => cut.contains c) := List.rdropWhile_prefix _ _
  have h2 : s.dropWhile (fun c => cut.contains c) <:+ s := List.dropWhile_suffix _
  exact h1.isInfix.trans h2.isInfix

theorem mem_trimChars {c : Char} {cut s : List Char} (h : c ∈ trimChars cut s) :
    c ∈ s := (trimChars_contained cut s).sublist.subset h

theorem trimChars_idem (cut s : List Char) :
    trimChars cut (trimChars cut s) = trimChars cut s := by
  have h1 : List.dropWhile (fun c => cut.contains c) (trimChars cut s) =
      trimChars cut s := by
    rw [List.dropWhile_eq_self_iff]
    intro hl
    have hpre : trimChars cut s <+:
        s.dropWhile (fun c => cut.contains c) := by
      rw [trimChars_eq]
      exact List.rdropWhile_prefix _ _
    rw [List.get_eq_getElem, hpre.getElem hl]
    exact List.dropWhile_get_zero_not _ _ (Nat.lt_of_lt_of_le hl hpre.length_le)
  rw [trimChars_eq cut (trimChars cut s), h1, trimChars_eq cut s,
    List.rdropWhile_idempotent]

theorem trimChars_eq_nil {cut s : List Char}
    (h : ∀ c ∈ s, cut.contains c = true) : trimChars cut s = [] := by
  rw [trimChars_eq, List.dropWhile_eq_nil_iff.mpr h, List.rdropWhile_nil]

/-! ## Global properties of the replacement chain -/

/-- The nine single-character unsafe sequences of main.go:60. -/
def unsafeChars : List Char := ['/', '\\', ':', '*', '?', '"', '<', '>', '|']

theorem hasDD_replaceUnsafe (s : List Char) : hasDD (replaceUnsafe s) = false := by
  unfold replaceUnsafe
  exact hasDD_replaceChar _ (by decide) _ (hasDD_replaceChar _ (by decide) _
    (hasDD_replaceChar _ (by decide) _ (hasDD_replaceChar _ (by decide) _
      (hasDD_replaceChar _ (by decide) _ (hasDD_replaceChar _ (by decide) _
        (hasDD_replaceChar _ (by decide) _ (hasDD_replaceDD _)))))))

theorem not_mem_replaceUnsafe {b : Char} (hb : b ∈ unsafeChars) (s : List Char) :
    b ∉ replaceUnsafe s := by
  fin_cases hb <;>
  · unfold replaceUnsafe
    repeat
      first
      | exact not_mem_replaceChar _ _ (by decide) _ (Or.inl rfl)
      | (apply not_mem_replaceChar _ _ (by decide); apply Or.inr)
      | apply not_mem_replaceDD _ (by decide)

theorem replaceUnsafe_eq_self (t : List Char) (hdd : hasDD t = false)
    (hch : ∀ b ∈ unsafeChars, b ∉ t) : replaceUnsafe t = t := by
  unfold replaceUnsafe
  rw [replaceChar_eq_self t (hch '/' (by decide)),
    replaceChar_eq_self t (hch '\\' (by decide)),
    replaceDD_eq_self t hdd,
    replaceChar_eq_self t (hch ':' (by decide)),
    replaceChar_eq_self t (hch '*' (by decide)),
    replaceChar_eq_self t (hch '?' (by decide)),
    replaceChar_eq_self t (hch '"' (by decide)),
    replaceChar_eq_self t (hch '<' (by decide)),
    replaceChar_eq_self t (hch '>' (by decide)),
    replaceChar_eq_self t (hch '|' (by decide))]

/-- Every output of `sanitizeFilename` is non-empty, already trimmed, free of
`".."`, and free of all nine unsafe characters. -/
theorem sanitizeFilename_props (s : List Char) :
    sanitizeFilename s ≠ []
    ∧ trimChars trimCutset (sanitizeFilename s) = sanitizeFilename s
    ∧ hasDD (sanitizeFilename s) = false
    ∧ ∀ b ∈ unsafeChars, b ∉ sanitizeFilename s := by
  rw [sanitizeFilename_eq]
  by_cases h : trimChars trimCutset (replaceUnsafe s) = []
  · rw [if_pos h]
    refine ⟨by decide, by decide, by decide, ?_⟩
    intro b hb
    fin_cases hb <;> decide
  · rw [if_neg h]
    refine ⟨h, trimChars_idem _ _, ?_, ?_⟩
    · by_cases hdd : hasDD (trimChars trimCutset (replaceUnsafe s)) = true
      · exfalso
        have hinf := ((hasDD_iff _).mp hdd).trans (trimChars_contained _ _)
        exact not_infix_dd_of_hasDD (hasDD_replaceUnsafe s) hinf
      · simpa using hdd
    · intro b hb hmem
      exact not_mem_replaceUnsafe hb _ (mem_trimChars hmem)

/-! ## Claims C1 and C8 -/

/-- **C1** (amended).  `sanitizeFilename` replaces every occurrence of each of
the sequences `/`, `\`, `..`, `:`, `*`, `?`, `"`, `<`, `>`, `|` (in source
order) with the placeholder `'_'`, then trims leading and trailing spaces and
dots, and returns the fixed default name if the result is empty.  Consequently
the output never contains a path separator or a `".."` traversal sequence and
is never empty; sanitizing `"../../etc/passwd"` yields the non-empty,
separator-free name `"____etc_passwd"`.  An input of only spaces and dots
**with no two adjacent dots** yields the fixed default (the original claim's
unrestricted version is refuted by `claim_C1_counterexample`: the input `".."`
is replaced by `"_"` before trimming and does not yield the default). -/
theorem claim_C1_sanitize (s : List Char) :
    sanitizeFilename s =
      (if trimChars trimCutset (replaceUnsafe s) = [] then defaultFilename
       else trimChars trimCutset (replaceUnsafe s))
    ∧ sanitizeFilename s ≠ []
    ∧ '/' ∉ sanitizeFilename s
    ∧ '\\' ∉ sanitizeFilename s
    ∧ ¬ ['.', '.'] <:+: sanitizeFilename s
    ∧ sanitizeFilename ("../../etc/passwd".data) = "____etc_passwd".data
    ∧ ((∀ c ∈ s, c = ' ' ∨ c = '.') → ¬ ['.', '.'] <:+: s →
        sanitizeFilename s = defaultFilename) := by
  obtain ⟨hne, htrim, hdd, hch⟩ := sanitizeFilename_props s
  refine ⟨sanitizeFilename_eq s, hne, hch '/' (by decide), hch '\\' (by decide),
    not_infix_dd_of_hasDD hdd, by decide, ?_⟩
  intro hsp hsd
  have hdds : hasDD s = false := by
    by_cases h : hasDD s = true
    · exact absurd ((hasDD_iff s).mp h) hsd
    · simpa using h
  have hch' : ∀ b ∈ unsafeChars, b ∉ s := fun b hb hbs => by
    rcases hsp b hbs with rfl | rfl
    · exact absurd hb (by decide)
    · exact absurd hb (by decide)
  have hru : replaceUnsafe s = s := replaceUnsafe_eq_self s hdds hch'
  have htn : trimChars trimCutset s = [] :=
    trimChars_eq_nil (fun c hc => by rcases hsp c hc with rfl | rfl <;> decide)
  rw [sanitizeFilename_eq s, hru, htn, if_pos rfl]

/-- Witness for **C1**: the input `" . "` consists of spaces and dots with no
two adjacent dots, and sanitizes to the fixed default name. -/
theorem claim_C1_sanitize_witness :
    (∀ c ∈ (" . ".data), c = ' ' ∨ c = '.')
    ∧ ¬ ['.', '.'] <:+: (" . ".data)
    ∧ sanitizeFilename (" . ".data) = defaultFilename :=
  ⟨by decide, by decide,
    (claim_C1_sanitize (" . ".data)).2.2.2.2.2.2 (by decide) (by decide)⟩

/-- **C1** counterexample to the original claim: the input `".."` consists
only of dots, yet `sanitizeFilename` returns `"_"` (the `".."` occurrence is
replaced by the placeholder *before* trimming), not the fixed default name. -/
theorem claim_C1_counterexample :
    (∀ c ∈ ("..".data), c = ' ' ∨ c = '.')
    ∧ sanitizeFilename ("..".data) = "_".data
    ∧ sanitizeFilename ("..".data) ≠ defaultFilename :=
  ⟨by decide, by decide, by decide⟩

/-- **C8**: `sanitizeFilename` is idempotent: every output is a fixpoint.
Each output contains none of the unsafe sequences and no leading or trailing
spaces or dots (or is exactly the fixed default name), so a second
sanitization changes nothing. -/
theorem claim_C8_sanitize_idempotent (s : List Char) :
    sanitizeFilename (sanitizeFilename s) = sanitizeFilename s := by
  obtain ⟨hne, htrim, hdd, hch⟩ := sanitizeFilename_props s
  rw [sanitizeFilename_eq (sanitizeFilename s),
    replaceUnsafe_eq_self _ hdd hch, htrim, if_neg hne]

/-! ## `getUniqueFilename` (main.go:79-100)

File existence (`os.Stat`) in the uploads directory is modelled by membership
of the name in the finite list `existing` of names the directory contains. -/

/-- Scanner for Go `filepath.Ext`, running over the reversed filename: a path
separator before any dot means no extension; the first dot returns the dot
followed by the accumulated characters (those after the last dot, in order). -/
def extRevAux : List Char → List Char → List Char
  | _, [] => []
  | acc, c :: cs =>
    if c = '/' then []
    else if c = '.' then '.' :: acc
    else extRevAux (c :: acc) cs

/-- Go `filepath.Ext` (main.go:89): the suffix beginning at the last dot of
the final path element; empty if there is no dot. -/
def goExt (s : List Char) : List Char := extRevAux [] s.reverse

/-- Go `strings.TrimSuffix` (main.go:90). -/
def trimSuffix (s suf : List Char) : List Char :=
  if suf.isSuffixOf s then s.take (s.length - suf.length) else s

/-- Decimal digit conversion for `fmt.Sprintf("%d", _)`; the fuel `n + 1`
always exceeds the number of decimal digits of `n`. -/
def natDigitsAux : Nat → Nat → List Char → List Char
  | 0, _, acc => acc
  | fuel + 1, n, acc =>
    if n < 10 then Nat.digitChar n :: acc
    else natDigitsAux fuel (n / 10) (Nat.digitChar (n % 10) :: acc)

/-- The decimal representation of `n`, as produced by `fmt.Sprintf("%d", n)`. -/
def natDigits (n : Nat) : List Char := natDigitsAux (n + 1) n []

/-- The probe name `fmt.Sprintf("%s_%d%s", base, i, ext)` (main.go:93). -/
def candidate (base extn : List Char) (i : Nat) : List Char :=
  base ++ '_' :: (natDigits i ++ extn)

/-- The probe loop `for i := 1; ; i++` of `getUniqueFilename`
(main.go:92-99), with an explicit probe bound.  The bound used by
`getUniqueFilename` is proven sufficient (`exists_free_candidate`), so the
out-of-fuel branch is never the one that produces the result. -/
def probeLoop (existing : List (List Char)) (base extn : List Char) :
    Nat → Nat → List Char
  | i, 0 => candidate base extn i
  | i, fuel + 1 =>
    if candidate base extn i ∈ existing then probeLoop existing base extn (i + 1) fuel
    else candidate base extn i

/-- `getUniqueFilename` (main.go:79-100). -/
def getUniqueFilename (existing : List (List Char)) (filename : List Char) :
    List Char :=
  let sanitized := sanitizeFilename filename
  if sanitized ∈ existing then
    let extn := goExt sanitized
    let base := trimSuffix sanitized extn
    probeLoop existing base extn 1 (existing.length + 1)
  else sanitized

example : goExt ("report.txt".data) = ".txt".data := by decide
example : trimSuffix ("report.txt".data) (".txt".data) = "report".data := by decide
example : natDigits 1 = ['1'] ∧ natDigits 12 = ['1', '2'] ∧ natDigits 0 = ['0'] := by decide
example : getUniqueFilename [] ("report.txt".data) = "report.txt".data := by decide
example : getUniqueFilename ["report.txt".data] ("report.txt".data)
    = "report_1.txt".data := by decide
example : getUniqueFilename ["report.txt".data, "report_1.txt".data] ("report.txt".data)
    = "report_2.txt".data := by decide

/-! ## Decimal digits are injective, so distinct probe indices give distinct
candidate names -/

theorem natDigitsAux_acc :
    ∀ fuel n acc, n < fuel →
      natDigitsAux fuel n acc = natDigitsAux fuel n [] ++ acc := by
  intro fuel
  induction fuel with
  | zero =>
    intro n acc h
    omega
  | succ f ih =>
    intro n acc h
    by_cases h10 : n < 10
    · simp [natDigitsAux, h10]
    · have hdiv : n / 10 < n := Nat.div_lt_self (by omega) (by omega)
      simp only [natDigitsAux, if_neg h10]
      rw [ih (n / 10) _ (by omega), ih (n / 10) (Nat.digitChar (n % 10) :: []) (by omega)]
      simp

theorem natDigitsAux_fuel :
    ∀ f1 f2 n acc, n < f1 → n < f2 →
      natDigitsAux f1 n acc = natDigitsAux f2 n acc := by
  intro f1
  induction f1 with
  | zero =>
    intro f2 n acc h1 _
    omega
  | succ a ih =>
    intro f2 n acc h1 h2
    cases f2 with
    | zero => omega
    | succ b =>
      by_cases h10 : n < 10
      · simp [natDigitsAux, h10]
      · have hdiv : n / 10 < n := Nat.div_lt_self (by omega) (by omega)
        simp only [natDigitsAux, if_neg h10]
        exact ih b (n / 10) _ (by omega) (by omega)

theorem natDigits_lt_ten {n : Nat} (h : n < 10) : natDigits n = [Nat.digitChar n] := by
  simp [natDigits, natDigitsAux, h]

theorem natDigits_ge_ten {n : Nat} (h : 10 ≤ n) :
    natDigits n = natDigits (n / 10) ++ [Nat.digitChar (n % 10)] := by
  have hdiv : n / 10 < n := Nat.div_lt_self (by omega) (by omega)
  have hstep : natDigits n = natDigitsAux n (n / 10) [Nat.digitChar (n % 10)] := by
    unfold natDigits
    simp only [natDigitsAux]
    rw [if_neg (by omega : ¬ n < 10)]
  rw [hstep, natDigitsAux_acc n (n / 10) _ (by omega),
    natDigitsAux_fuel n (n / 10 + 1) (n / 10) [] (by omega) (by omega)]
  rfl

theorem natDigits_ne_nil (n : Nat) : natDigits n ≠ [] := by
  by_cases h : n < 10
  · rw [natDigits_lt_ten h]
    simp
  · rw [natDigits_ge_ten (by omega)]
    simp

theorem digitChar_inj_lt :
    ∀ a < 10, ∀ b < 10, Nat.digitChar a = Nat.digitChar b → a = b := by decide

theorem natDigits_inj : ∀ n m : Nat, natDigits n = natDigits m → n = m := by
  intro n
  induction n using Nat.strong_induction_on with
  | _ n ih =>
    intro m h
    by_cases hn : n < 10 <;> by_cases hm : m < 10
    · rw [natDigits_lt_ten hn, natDigits_lt_ten hm] at h
      injection h with h1 _
      exact digitChar_inj_lt n hn m hm h1
    · exfalso
      rw [natDigits_lt_ten hn, natDigits_ge_ten (by omega : 10 ≤ m)] at h
      have hlen := congrArg List.length h
      rw [List.length_append, List.length_singleton, List.length_singleton] at hlen
      have h0 : (natDigits (m / 10)).length = 0 := by omega
      exact natDigits_ne_nil (m / 10) (List.length_eq_zero.mp h0)
    · exfalso
      rw [natDigits_ge_ten (by omega : 10 ≤ n), natDigits_lt_ten hm] at h
      have hlen := congrArg List.length h
      rw [List.length_append, List.length_singleton, List.length_singleton] at hlen
      have h0 : (natDigits (n / 10)).length = 0 := by omega
      exact natDigits_ne_nil (n / 10) (List.length_eq_zero.mp h0)
    · rw [natDigits_ge_ten (by omega : 10 ≤ n),
        natDigits_ge_ten (by omega : 10 ≤ m)] at h
      have hlast := congrArg List.getLast? h
      rw [List.getLast?_concat, List.getLast?_concat] at hlast
      have hmod : n % 10 = m % 10 :=
        digitChar_inj_lt _ (Nat.mod_lt _ (by omega)) _ (Nat.mod_lt _ (by omega))
          (Option.some.inj hlast)
      have hdrop := congrArg List.dropLast h
      rw [List.dropLast_concat, List.dropLast_concat] at hdrop
      have hdiv : n / 10 = m / 10 :=
        ih (n / 10) (Nat.div_lt_self (by omega) (by omega)) (m / 10) hdrop
      omega

theorem candidate_inj (base extn : List Char) {i j : Nat}
    (h : candidate base extn i = candidate base extn j) : i = j := by
  unfold candidate at h
  have h1 := List.append_cancel_left h
  injection h1 with _ h2
  exact natDigits_inj _ _ (List.append_cancel_right h2)

/-- Pigeonhole: among the first `existing.length + 1` probe indices there is
one whose candidate name is not in the directory. -/
theorem exists_free_candidate (existing : List (List Char)) (base extn : List Char) :
    ∃ i, 1 ≤ i ∧ i ≤ existing.length + 1 ∧ candidate base extn i ∉ existing := by
  by_contra hcon
  push_neg at hcon
  have hinj : Set.InjOn (candidate base extn) (Finset.Icc 1 (existing.length + 1)) :=
    fun a _ b _ hab => candidate_inj base extn hab
  have hmap : ∀ i ∈ Finset.Icc 1 (existing.length + 1),
      candidate base extn i ∈ existing.toFinset := by
    intro i hi
    rw [List.mem_toFinset]
    rcases Finset.mem_Icc.mp hi with ⟨h1, h2⟩
    exact hcon i h1 h2
  have hcard := Finset.card_le_card_of_injOn _ hmap hinj
  rw [Nat.card_Icc] at hcard
  have := existing.toFinset_card_le
  omega

/-- The probe loop returns the candidate of the smallest free index at or
after its starting index, provided a free index exists within its fuel
window. -/
theorem probeLoop_spec (existing : List (List Char)) (base extn : List Char) :
    ∀ fuel i, (∃ j, i ≤ j ∧ j < i + fuel ∧ candidate base extn j ∉ existing) →
      ∃ j, i ≤ j ∧ probeLoop existing base extn i fuel = candidate base extn j
        ∧ candidate base extn j ∉ existing
        ∧ ∀ k, i ≤ k → k < j → candidate base extn k ∈ existing := by
  intro fuel
  induction fuel with
  | zero =>
    intro i ⟨j, hj1, hj2, _⟩
    omega
  | succ f ih =>
    intro i ⟨j, hj1, hj2, hj3⟩
    by_cases hc : candidate base extn i ∈ existing
    · have hji : j ≠ i := fun he => (he ▸ hj3) hc
      rcases ih (i + 1) ⟨j, by omega, by omega, hj3⟩ with ⟨j2, hj21, hj22, hj23, hj24⟩
      refine ⟨j2, by omega, ?_, hj23, ?_⟩
      · rw [probeLoop, if_pos hc]
        exact hj22
      · intro k hk1 hk2
        rcases Nat.eq_or_lt_of_le hk1 with he | hlt
        · exact he ▸ hc
        · exact hj24 k (by omega) hk2
    · exact ⟨i, Nat.le_refl _, by rw [probeLoop, if_neg hc], hc,
        fun k hk1 hk2 => absurd (Nat.lt_of_le_of_lt hk1 hk2) (Nat.lt_irrefl _)⟩

/-- **C2**: for every destination directory state (a finite set of existing
names) and every filename, `getUniqueFilename` returns the sanitized name
itself when no file of that name exists, and otherwise returns `base_i.ext`
for the smallest `i ≥ 1` such that `base_i.ext` does not exist, where `base`
and `ext` are obtained by splitting the sanitized name at its last extension
separator; in particular, with `report.txt` already present a second upload
named `report.txt` resolves to `report_1.txt` and a third to
`report_2.txt`. -/
theorem claim_C2_unique_filename (existing : List (List Char)) (filename : List Char) :
    (sanitizeFilename filename ∉ existing →
      getUniqueFilename existing filename = sanitizeFilename filename)
    ∧ (sanitizeFilename filename ∈ existing →
        ∃ i, 1 ≤ i
          ∧ getUniqueFilename existing filename =
              candidate (trimSuffix (sanitizeFilename filename)
                (goExt (sanitizeFilename filename)))
                (goExt (sanitizeFilename filename)) i
          ∧ candidate (trimSuffix (sanitizeFilename filename)
                (goExt (sanitizeFilename filename)))
                (goExt (sanitizeFilename filename)) i ∉ existing
          ∧ ∀ j, 1 ≤ j → j < i →
              candidate (trimSuffix (sanitizeFilename filename)
                (goExt (sanitizeFilename filename)))
                (goExt (sanitizeFilename filename)) j ∈ existing)
    ∧ getUniqueFilename ["report.txt".data] ("report.txt".data) = "report_1.txt".data
    ∧ getUniqueFilename ["report.txt".data, "report_1.txt".data] ("report.txt".data)
        = "report_2.txt".data := by
  refine ⟨?_, ?_, by decide, by decide⟩
  · intro h
    simp only [getUniqueFilename]
    rw [if_neg h]
  · intro h
    simp only [getUniqueFilename]
    rw [if_pos h]
    rcases exists_free_candidate existing
        (trimSuffix (sanitizeFilename filename) (goExt (sanitizeFilename filename)))
        (goExt (sanitizeFilename filename)) with ⟨i0, hi01, hi02, hi03⟩
    rcases probeLoop_spec existing _ _ (existing.length + 1) 1
      ⟨i0, hi01, by omega, hi03⟩ with ⟨j, hj1, hj2, hj3, hj4⟩
    exact ⟨j, hj1, hj2, hj3, hj4⟩

/-- Witness for **C2**: a concrete application with each hypothesis
discharged. -/
theorem claim_C2_unique_filename_witness :
    sanitizeFilename ("a.txt".data) ∉ ([] : List (List Char))
    ∧ getUniqueFilename [] ("a.txt".data) = sanitizeFilename ("a.txt".data) :=
  ⟨by decide, (claim_C2_unique_filename [] ("a.txt".data)).1 (by decide)⟩

/-- **C9**: `getUniqueFilename` terminates for every finite set of existing
names — within the first `existing.length + 1` probe indices there is always a
free candidate, so the probe loop always reaches a free name — and the name it
returns does not already exist in the directory. -/
theorem claim_C9_terminating (existing : List (List Char)) (filename : List Char) :
    getUniqueFilename existing filename ∉ existing
    ∧ ∀ base extn : List Char,
        ∃ i, 1 ≤ i ∧ i ≤ existing.length + 1 ∧ candidate base extn i ∉ existing := by
  constructor
  · by_cases h : sanitizeFilename filename ∈ existing
    · simp only [getUniqueFilename]
      rw [if_pos h]
      rcases exists_free_candidate existing
          (trimSuffix (sanitizeFilename filename) (goExt (sanitizeFilename filename)))
          (goExt (sanitizeFilename filename)) with ⟨i0, hi01, hi02, hi03⟩
      rcases probeLoop_spec existing _ _ (existing.length + 1) 1
        ⟨i0, hi01, by omega, hi03⟩ with ⟨j, _, hj2, hj3, _⟩
      rw [hj2]
      exact hj3
    · simp only [getUniqueFilename]
      rw [if_neg h]
      exact h
  · intro base extn
    exact exists_free_candidate existing base extn

/-! ## The finalizer (`handleCompletedUploads`, main.go:102-148)

The body of the event loop is embedded as the pure transition `processEvent`.
The state carries the names present in the uploads directory (`files`) and
the upload IDs that have a tusd Metadata Store record (`metaRecords`, the
`<id>.info` files written by the tusd `filestore`).  `handleCompletedUploads`
contains no operation on the metadata records, so no branch of `processEvent`
touches `metaRecords`.  An `os.Rename` failing for an environmental reason
other than a missing source file is modelled by the flag `renameFails`. -/

structure ServerState where
  files : List (List Char)
  metaRecords : List (List Char)
deriving DecidableEq

structure UploadEvent where
  id : List Char
  metadata : List (List Char × List Char)

/-- Go map indexing `m["filename"]` (main.go:107): the zero value `""` when
the key is absent. -/
def goMapGet (m : List (List Char × List Char)) (k : List Char) : List Char :=
  match m.find? (fun p => p.fst == k) with
  | some p => p.snd
  | none => []

/-- The four exits of one iteration of the event loop, each of which only
logs; none returns an error to the uploading client. -/
inductive FinalizeOutcome
  | noFilename
  | sourceMissing
  | renameFailed
  | renamed (finalName : List Char)
deriving DecidableEq

/-- One iteration of the event loop of `handleCompletedUploads`
(main.go:104-146): read `metadata["filename"]`; if empty, keep the file under
its upload ID and continue; otherwise resolve the final name, check that the
upload-ID file exists, and rename it.  Every failure exit leaves the state
unchanged. -/
def processEvent (renameFails : Bool) (st : ServerState) (ev : UploadEvent) :
    ServerState × FinalizeOutcome :=
  let originalFilename := goMapGet ev.metadata ("filename".data)
  if originalFilename = [] then (st, FinalizeOutcome.noFilename)
  else
    let finalFilename := getUniqueFilename st.files originalFilename
    if ev.id ∈ st.files then
      if renameFails then (st, FinalizeOutcome.renameFailed)
      else
        ({ files := finalFilename :: st.files.erase ev.id,
           metaRecords := st.metaRecords }, FinalizeOutcome.renamed finalFilename)
    else (st, FinalizeOutcome.sourceMissing)

/-- The event loop: each iteration consumes the next completion event from
the channel (paired with that iteration's rename-environment flag) and
continues with the resulting state. -/
def runFinalizer : List (Bool × UploadEvent) → ServerState → ServerState
  | [], st => st
  | (rf, ev) :: rest, st => runFinalizer rest (processEvent rf st ev).1

/-- **C3** (counterexample to the claim; the code contradicts the spec and
README here): on a completion event whose upload file is successfully renamed
to its resolved final name, `handleCompletedUploads` does **not** delete the
upload's Metadata Store record — main.go contains no deletion call, so the
record survives the successful promotion. -/
theorem claim_C3_metadata_record_survives :
    processEvent false
        { files := ["X".data], metaRecords := ["X".data] }
        { id := "X".data, metadata := [("filename".data, "a.txt".data)] }
      = ({ files := ["a.txt".data], metaRecords := ["X".data] },
         FinalizeOutcome.renamed ("a.txt".data))
    ∧ "X".data ∈ (processEvent false
        { files := ["X".data], metaRecords := ["X".data] }
        { id := "X".data, metadata := [("filename".data, "a.txt".data)] }).1.metaRecords
    ∧ ∀ (renameFails : Bool) (st : ServerState) (ev : UploadEvent),
        (processEvent renameFails st ev).1.metaRecords = st.metaRecords := by
  refine ⟨by decide, by decide, ?_⟩
  intro renameFails st ev
  simp only [processEvent]
  by_cases h1 : goMapGet ev.metadata ("filename".data) = []
  · rw [if_pos h1]
  · rw [if_neg h1]
    by_cases h2 : ev.id ∈ st.files
    · rw [if_pos h2]
      by_cases h3 : renameFails
      · rw [if_pos h3]
      · rw [if_neg h3]
    · rw [if_neg h2]

/-- **C4**: when finalization fails — the upload-ID-addressed source file is
missing, or the rename returns an error — the finalizer leaves the whole
state unchanged (it deletes neither the Content Store artifact nor the
Metadata Store record, so everything stays available for retry), records only
a logged outcome (nothing is surfaced to the uploading client), and the loop
continues with the next event as if the failing one had not occurred. -/
theorem claim_C4_failure_keeps_state (renameFails : Bool) (st : ServerState)
    (ev : UploadEvent) (rest : List (Bool × UploadEvent))
    (h : goMapGet ev.metadata ("filename".data) ≠ [])
    (hfail : ev.id ∉ st.files ∨ renameFails = true) :
    (processEvent renameFails st ev).1 = st
    ∧ ((processEvent renameFails st ev).2 = FinalizeOutcome.sourceMissing
       ∨ (processEvent renameFails st ev).2 = FinalizeOutcome.renameFailed)
    ∧ runFinalizer ((renameFails, ev) :: rest) st = runFinalizer rest st := by
  have hp : processEvent renameFails st ev = (st, FinalizeOutcome.sourceMissing)
      ∨ processEvent renameFails st ev = (st, FinalizeOutcome.renameFailed) := by
    simp only [processEvent]
    rw [if_neg h]
    rcases hfail with hm | hr
    · rw [if_neg hm]
      exact Or.inl rfl
    · by_cases hid : ev.id ∈ st.files
      · rw [if_pos hid, if_pos hr]
        exact Or.inr rfl
      · rw [if_neg hid]
        exact Or.inl rfl
  have hst : (processEvent renameFails st ev).1 = st := by
    rcases hp with hp | hp <;> rw [hp]
  refine ⟨hst, ?_, ?_⟩
  · rcases hp with hp | hp
    · exact Or.inl (by rw [hp])
    · exact Or.inr (by rw [hp])
  · rw [runFinalizer, hst]

/-- Witness for **C4**: a missing source file (`"Y"` is not in the uploads
directory) leaves the concrete state untouched. -/
theorem claim_C4_failure_keeps_state_witness :
    goMapGet [("filename".data, "a.txt".data)] ("filename".data) ≠ []
    ∧ ("Y".data ∉ (["X".data] : List (List Char)) ∨ false = true)
    ∧ (processEvent false { files := ["X".data], metaRecords := ["X".data] }
        { id := "Y".data, metadata := [("filename".data, "a.txt".data)] }).1
      = { files := ["X".data], metaRecords := ["X".data] } :=
  ⟨by decide, Or.inl (by decide),
    (claim_C4_failure_keeps_state false
      { files := ["X".data], metaRecords := ["X".data] }
      { id := "Y".data, metadata := [("filename".data, "a.txt".data)] }
      [] (by decide) (Or.inl (by decide))).1⟩

/-- **C5**: a completion event with no `"filename"` metadata entry triggers no
rename — the state, in particular the artifact stored under the upload ID, is
untouched; the outcome is the logged `noFilename`; it is not an error, and the
loop simply proceeds to the next event. -/
theorem claim_C5_no_filename (renameFails : Bool) (st : ServerState)
    (ev : UploadEvent) (rest : List (Bool × UploadEvent))
    (h : ev.metadata.find? (fun p => p.fst == ("filename".data)) = none) :
    processEvent renameFails st ev = (st, FinalizeOutcome.noFilename)
    ∧ (ev.id ∈ st.files → ev.id ∈ (processEvent renameFails st ev).1.files)
    ∧ runFinalizer ((renameFails, ev) :: rest) st = runFinalizer rest st := by
  have hg : goMapGet ev.metadata ("filename".data) = [] := by
    unfold goMapGet
    rw [h]
  have hp : processEvent renameFails st ev = (st, FinalizeOutcome.noFilename) := by
    simp only [processEvent]
    rw [if_pos hg]
  refine ⟨hp, fun hm => by rw [hp]; exact hm, by rw [runFinalizer, hp]⟩

/-- Witness for **C5**: an event with metadata lacking `"filename"`. -/
theorem claim_C5_no_filename_witness :
    ([("filetype".data, "text".data)].find?
        (fun p => p.fst == ("filename".data)) = none)
    ∧ processEvent false { files := ["X".data], metaRecords := ["X".data] }
        { id := "X".data, metadata := [("filetype".data, "text".data)] }
      = ({ files := ["X".data], metaRecords := ["X".data] },
         FinalizeOutcome.noFilename) :=
  ⟨by decide,
    (claim_C5_no_filename false { files := ["X".data], metaRecords := ["X".data] }
      { id := "X".data, metadata := [("filetype".data, "text".data)] }
      [] (by decide)).1⟩

/-- **C10**: a completion event whose metadata maps `"filename"` to the empty
string is treated identically to one with no filename entry at all: the Go
map read yields the zero value `""` in both cases, so `processEvent` leaves
the state unchanged with outcome `noFilename` and never attempts
sanitization, collision resolution, or renaming. -/
theorem claim_C10_empty_filename (renameFails : Bool) (st : ServerState)
    (id : List Char) (md mdAbsent : List (List Char × List Char))
    (hempty : md.find? (fun p => p.fst == ("filename".data))
        = some (("filename".data, [])))
    (habsent : mdAbsent.find? (fun p => p.fst == ("filename".data)) = none) :
    processEvent renameFails st { id := id, metadata := md }
      = (st, FinalizeOutcome.noFilename)
    ∧ processEvent renameFails st { id := id, metadata := md }
      = processEvent renameFails st { id := id, metadata := mdAbsent } := by
  have hg : goMapGet md ("filename".data) = [] := by
    unfold goMapGet
    rw [hempty]
  have hg2 : goMapGet mdAbsent ("filename".data) = [] := by
    unfold goMapGet
    rw [habsent]
  have hp : processEvent renameFails st { id := id, metadata := md }
      = (st, FinalizeOutcome.noFilename) := by
    simp only [processEvent]
    rw [if_pos hg]
  have hp2 : processEvent renameFails st { id := id, metadata := mdAbsent }
      = (st, FinalizeOutcome.noFilename) := by
    simp only [processEvent]
    rw [if_pos hg2]
  exact ⟨hp, hp.trans hp2.symm⟩

/-- Witness for **C10**: metadata `{"filename": ""}` versus metadata without
the key behave identically on a concrete state. -/
theorem claim_C10_empty_filename_witness :
    ([(("filename".data, ([] : List Char)))].find?
        (fun p => p.fst == ("filename".data)) = some (("filename".data, [])))
    ∧ (([] : List (List Char × List Char)).find?
        (fun p => p.fst == ("filename".data)) = none)
    ∧ processEvent false { files := ["X".data], metaRecords := [] }
        { id := "X".data, metadata := [("filename".data, [])] }
      = processEvent false { files := ["X".data], metaRecords := [] }
        { id := "X".data, metadata := [] } :=
  ⟨by decide, by decide,
    (claim_C10_empty_filename false { files := ["X".data], metaRecords := [] }
      ("X".data) [("filename".data, [])] [] (by decide) (by decide)).2⟩

/-! ## Claim C6 — the Upload State Machine's `Append` (spec §4.4)

The Upload State Machine is implemented by the external tusd library
(`github.com/tus/tusd/v2/pkg/handler` with the `filestore` backend); only its
caller `runServer` is part of this repository's sources, so `Append` is
modelled from the spec. -/

inductive UploadPhase
  | created
  | inProgress
  | completed
  | terminated
deriving DecidableEq

/-- The per-upload record of spec §3 (the parts `Append` touches). -/
structure Upload where
  offset : Nat
  declaredLength : Option Nat
  phase : UploadPhase
  bytes : List Nat
deriving DecidableEq

inductive AppendResult
  | ok (newOffset : Nat)
  | conflict
  | invalidState
deriving DecidableEq

/-- Modelled from the spec: the `Append` operation of the Upload State
Machine (spec §4.4), implemented by the external tusd library and absent from
`src/`.  Under the upload's lock: fails with `Conflict` if
`expectedOffset ≠ offset`; fails with `Gone`/`InvalidState` if the state is
`Completed` or `Terminated`; otherwise appends the bytes, advances the
offset, transitions `Created → InProgress`, and to `Completed` exactly when
the new offset reaches the declared length.  A failure returns the upload
unchanged. -/
def appendOp (u : Upload) (expectedOffset : Nat) (bs : List Nat) :
    Upload × AppendResult :=
  if expectedOffset ≠ u.offset then (u, AppendResult.conflict)
  else if u.phase = UploadPhase.completed ∨ u.phase = UploadPhase.terminated then
    (u, AppendResult.invalidState)
  else
    let newOffset := u.offset + bs.length
    ({ offset := newOffset
       declaredLength := u.declaredLength
       phase := if u.declaredLength = some newOffset then UploadPhase.completed
                else UploadPhase.inProgress
       bytes := u.bytes ++ bs }, AppendResult.ok newOffset)

/-- **C6**: an `Append` whose expected offset differs from the store's
currently recorded offset — whether behind or ahead of it — fails with
`Conflict` and leaves all state (offset, stored bytes, upload state)
unchanged. -/
theorem claim_C6_append_conflict (u : Upload) (expectedOffset : Nat)
    (bs : List Nat) (h : expectedOffset ≠ u.offset) :
    appendOp u expectedOffset bs = (u, AppendResult.conflict) := by
  simp only [appendOp]
  rw [if_pos h]

/-- Witness for **C6**: with recorded offset 3, an append expecting offset 1
(behind) and one expecting offset 5 (ahead) both fail with `Conflict` and
leave the upload unchanged. -/
theorem claim_C6_append_conflict_witness :
    appendOp { offset := 3, declaredLength := some 10,
               phase := UploadPhase.inProgress, bytes := [7, 7, 7] } 1 [9]
      = ({ offset := 3, declaredLength := some 10,
           phase := UploadPhase.inProgress, bytes := [7, 7, 7] },
         AppendResult.conflict)
    ∧ appendOp { offset := 3, declaredLength := some 10,
                 phase := UploadPhase.inProgress, bytes := [7, 7, 7] } 5 [9]
      = ({ offset := 3, declaredLength := some 10,
           phase := UploadPhase.inProgress, bytes := [7, 7, 7] },
         AppendResult.conflict) :=
  ⟨claim_C6_append_conflict _ 1 [9] (by decide),
   claim_C6_append_conflict _ 5 [9] (by decide)⟩

end SimpleUpload
